import Mathlib

/-!
# Verification of the ContextDescriptionApp deployment engine

Shallow embedding of `deploy_app.py` (class `AppDeployer` and `main`).

Conventions of the embedding:
* Python strings are Lean `String`s; the Python operations `in` (substring),
  `startswith`, `endswith`, slicing `[1:]` and `strip('/')`/`split('/')` are
  embedded as executable functions over the underlying `List Char`.
* The FTP session is modelled explicitly: the string-level model `FtpState`
  (working directory + set of existing directories + permission-denied paths)
  serves the Directory Ensurer; the recursive upload and clean passes are
  modelled over local/remote directory trees with an explicit event trace
  standing for the FTP commands and console messages the code issues, in
  program order.  `ftplib.error_perm` is the only error the remote raises,
  matching the single "permission denied" error category of the protocol.
* A function's Lean return value mirrors the Python return value; prints and
  FTP commands appear only in the event-trace component.
-/

/-! ## Python string primitives -/

/-- Python `pat in s` (substring containment). -/
def strSub (pat s : String) : Bool := decide (pat.data <:+: s.data)

/-- Python `s.startswith (pre)`. -/
def strStarts (s pre : String) : Bool := pre.data.isPrefixOf s.data

/-- Python `s.endswith (suf)`. -/
def strEnds (s suf : String) : Bool := suf.data.isSuffixOf s.data

/-- Python `s[1:]`. -/
def strTail (s : String) : String := String.mk (s.data.drop 1)

/-! ## Exclusion Matcher (`AppDeployer.should_exclude`, deploy_app.py lines 65-73)

The Python method receives a `pathlib.Path`; it uses exactly two attributes of
it: `str(path)` (the full path string) and `path.name` (the final
name-component).  The embedding therefore takes those two strings, plus the
configured pattern list `self.exclude_patterns`. -/

/-- `AppDeployer.should_exclude`: for each pattern, in order:
if the pattern is a substring of the path string or equals the final name,
exclude; if the pattern starts with `*.` and the final name ends with the
pattern minus its leading `*`, exclude. -/
def should_exclude (patterns : List String) (pathStr name : String) : Bool :=
  match patterns with
  | [] => false
  | pattern :: rest =>
    if strSub pattern pathStr || name == pattern then true
    else if strStarts pattern "*." && strEnds name (strTail pattern) then true
    else should_exclude rest pathStr name

/-- The documented three-step exclusion policy, written from the spec's words
(§4.1): (1) some pattern is a literal substring of the path's string form, or
(2) the final name-component equals some pattern exactly, or (3) some pattern
begins with `*.` and the final name-component ends with the pattern's
remainder after the wildcard `*` (for `*.md` the remainder is `.md`). -/
def specExcludePolicy (patterns : List String) (pathStr name : String) : Bool :=
  (patterns.any fun p => strSub p pathStr) ||
  (patterns.any fun p => name == p) ||
  (patterns.any fun p => strStarts p "*." && strEnds name (strTail p))

/-- C3: `should_exclude` is a pure function of the pattern set and the path
(hence deterministic and side-effect free), and it returns `true` exactly when
the documented three-step policy does: some pattern is a literal substring of
the path's string form, or the final name-component equals some pattern, or
some pattern begins with `*.` and the final name-component ends with that
pattern's remainder. -/
theorem should_exclude_eq_spec_policy (patterns : List String) (pathStr name : String) :
    should_exclude patterns pathStr name = specExcludePolicy patterns pathStr name := by
  induction patterns with
  | nil => rfl
  | cons p rest ih =>
    simp only [should_exclude, specExcludePolicy, List.any_cons]
    by_cases h1 : (strSub p pathStr || name == p) = true
    · simp only [h1, if_true]
      rcases Bool.or_eq_true_iff.mp h1 with h | h <;> simp [h]
    · have h1' : (strSub p pathStr || name == p) = false := by
        simpa using h1
      rcases Bool.or_eq_false_iff.mp h1' with ⟨ha, hb⟩
      simp only [h1', if_false, Bool.false_or, ha, hb]
      by_cases h2 : (strStarts p "*." && strEnds name (strTail p)) = true
      · simp [h2]
      · have h2' : (strStarts p "*." && strEnds name (strTail p)) = false := by
          simpa using h2
        rw [ih]
        simp [specExcludePolicy, h2']

/-! ## Python `split` / `strip` on `'/'`

`create_remote_directory` computes `path.strip('/').split('/')`.  We embed
`str.split(sep)` for the one-character separator `'/'` as `splitChar` over the
character list, with Python's semantics (`''.split('/') == ['']`,
`'a//b'.split('/') == ['a','','b']`), and `str.strip('/')` as dropping the
separator from both ends. -/

/-- Python `s.split (sep)` for a single-character separator. -/
def splitChar (sep : Char) : List Char → List (List Char)
  | [] => [[]]
  | c :: rest =>
    match splitChar sep rest with
    | [] => [[]]
    | g :: gs => if c = sep then [] :: g :: gs else (c :: g) :: gs

/-- Python `s.strip ('/')` on the character list: remove leading and trailing
separator characters. -/
def stripChar (sep : Char) (l : List Char) : List Char :=
  ((l.dropWhile (· = sep)).reverse.dropWhile (· = sep)).reverse

/-- Python `s.strip('/')` at the `String` level. -/
def pyStrip (s : String) : String := String.mk (stripChar '/' s.data)

/-- Python `s.split('/')` at the `String` level. -/
def pySplit (s : String) : List String := (splitChar '/' s.data).map String.mk

theorem splitChar_ne_nil (sep : Char) (l : List Char) : splitChar sep l ≠ [] := by
  induction l with
  | nil => simp [splitChar]
  | cons c rest ih =>
    simp only [splitChar]
    cases h : splitChar sep rest with
    | nil => simp
    | cons g gs => by_cases hc : c = sep <;> simp [hc]

theorem splitChar_cons_sep (sep : Char) (l : List Char) :
    splitChar sep (sep :: l) = [] :: splitChar sep l := by
  simp only [splitChar]
  cases h : splitChar sep l with
  | nil => exact absurd h (splitChar_ne_nil sep l)
  | cons g gs => simp

theorem splitChar_append_sep (sep : Char) (l : List Char) :
    splitChar sep (l ++ [sep]) = splitChar sep l ++ [[]] := by
  induction l with
  | nil => simp [splitChar]
  | cons c rest ih =>
    have hx : (c :: rest) ++ [sep] = c :: (rest ++ [sep]) := rfl
    rw [hx]
    simp only [splitChar]
    rw [ih]
    cases h : splitChar sep rest with
    | nil => exact absurd h (splitChar_ne_nil sep rest)
    | cons g gs => by_cases hc : c = sep <;> simp [hc]

/-- Members of the groups produced by `splitChar` never contain the
separator. -/
theorem splitChar_not_mem_sep (sep : Char) (l : List Char) :
    ∀ g ∈ splitChar sep l, sep ∉ g := by
  induction l with
  | nil => simp [splitChar]
  | cons c rest ih =>
    simp only [splitChar]
    cases h : splitChar sep rest with
    | nil => simp
    | cons g0 gs =>
      have ih0 : sep ∉ g0 := ih g0 (h ▸ List.mem_cons_self g0 gs)
      have ihs : ∀ g ∈ gs, sep ∉ g := fun g hg => ih g (h ▸ List.mem_cons_of_mem g0 hg)
      show ∀ g ∈ (if c = sep then [] :: g0 :: gs else (c :: g0) :: gs), sep ∉ g
      by_cases hc : c = sep
      · rw [if_pos hc]
        intro g hg
        rcases List.mem_cons.mp hg with rfl | hg2
        · simp
        · rcases List.mem_cons.mp hg2 with rfl | hg3
          · exact ih0
          · exact ihs g hg3
      · rw [if_neg hc]
        intro g hg
        rcases List.mem_cons.mp hg with rfl | hg2
        · intro hm
          rcases List.mem_cons.mp hm with hm2 | hm2
          · exact hc hm2.symm
          · exact ih0 hm2
        · exact ihs g hg2

/-- Discarding empty groups, a leading separator is irrelevant to
`splitChar`. -/
theorem splitChar_filter_dropWhile (sep : Char) (l : List Char) :
    ((splitChar sep (l.dropWhile (· = sep))).filter (· ≠ [])) =
      ((splitChar sep l).filter (· ≠ [])) := by
  induction l with
  | nil => rfl
  | cons c rest ih =>
    by_cases hc : c = sep
    · rw [hc, List.dropWhile_cons_of_pos (by simp), splitChar_cons_sep]
      simpa using ih
    · rw [List.dropWhile_cons_of_neg (by simpa using hc)]

/-- Discarding empty groups, a trailing separator is irrelevant to
`splitChar`. -/
theorem splitChar_filter_append_sep (sep : Char) (l : List Char) :
    ((splitChar sep (l ++ [sep])).filter (· ≠ [])) =
      ((splitChar sep l).filter (· ≠ [])) := by
  rw [splitChar_append_sep]
  simp

/-- Discarding empty groups, stripping separators from both ends is irrelevant
to `splitChar`: `strip('/')` only removes the empty segments that leading and
trailing slashes would have produced. -/
theorem splitChar_filter_stripChar (sep : Char) (l : List Char) :
    ((splitChar sep (stripChar sep l)).filter (· ≠ [])) =
      ((splitChar sep l).filter (· ≠ [])) := by
  rw [stripChar, ← splitChar_filter_dropWhile sep l]
  generalize l.dropWhile (· = sep) = m
  induction m using List.reverseRecOn with
  | nil => rfl
  | append_singleton front c ihf =>
    by_cases hc : c = sep
    · have h1 : (front ++ [c]).reverse.dropWhile (· = sep)
          = front.reverse.dropWhile (· = sep) := by
        rw [List.reverse_append]
        simp [hc, List.dropWhile_cons]
      rw [h1, ihf, hc, splitChar_filter_append_sep]
    · have h2 : ((front ++ [c]).reverse.dropWhile (· = sep)).reverse = front ++ [c] := by
        rw [List.reverse_append]
        simp only [List.reverse_cons, List.reverse_nil, List.nil_append, List.singleton_append]
        rw [List.dropWhile_cons_of_neg (by simpa using hc)]
        simp
      rw [h2]

/-! ## FTP session model for the Directory Ensurer

`create_remote_directory` (deploy_app.py lines 84-102) talks to the session
through `ftp.mkd` and `ftp.cwd`.  The remote store is modelled by the set of
existing directory paths plus a set of permission-denied paths (the spec's
overloaded "permission/operation denied" category, §6): `MKD` fails with
`error_perm` when the directory already exists or the path is denied; `CWD`
succeeds on the root `"/"` and on existing directories.  Remote paths are the
exact strings the code builds (`a`, `a/b`, ...), interpreted from the root as
the program assumes. -/

structure FtpState where
  cwd : String
  dirs : List String
  denied : List String
deriving Repr, DecidableEq

/-- `ftp.mkd path`: create the directory, or raise `error_perm` if it already
exists or creation is denied. -/
def ftpMkd (s : FtpState) (path : String) : Except Unit FtpState :=
  if path ∈ s.dirs ∨ path ∈ s.denied then .error ()
  else .ok { s with dirs := path :: s.dirs }

/-- `ftp.cwd path`: change working directory, or raise `error_perm` if the
target does not exist (the root `"/"` always exists). -/
def ftpCwd (s : FtpState) (path : String) : Except Unit FtpState :=
  if path = "/" ∨ path ∈ s.dirs then .ok { s with cwd := path } else .error ()

/-- The loop body of `AppDeployer.create_remote_directory` over the
already-split parts.  For each non-empty part the accumulated path is
extended (`current_path += f'/{part}' if current_path else part`), `MKD` is
attempted, and on `error_perm` the code probes existence by `CWD` into the
accumulated path and then `CWD` back to `'/'`; if the probe also fails the
exception is re-raised.  Returns the final session state together with the
list of paths whose creation was attempted, in order. -/
def createDirLoop (s : FtpState) (current : String) :
    List String → Except Unit (FtpState × List String)
  | [] => .ok (s, [])
  | part :: rest =>
    if part = "" then createDirLoop s current rest
    else
      let current2 := if current = "" then part else current ++ "/" ++ part
      match ftpMkd s current2 with
      | .ok s2 =>
        match createDirLoop s2 current2 rest with
        | .ok (s3, tr) => .ok (s3, current2 :: tr)
        | .error e => .error e
      | .error _ =>
        match ftpCwd s current2 with
        | .ok s2 =>
          match ftpCwd s2 "/" with
          | .ok s3 =>
            match createDirLoop s3 current2 rest with
            | .ok (s4, tr) => .ok (s4, current2 :: tr)
            | .error e => .error e
          | .error e => .error e
        | .error e => .error e

/-- `AppDeployer.create_remote_directory` (lines 84-102):
`parts = path.strip('/').split('/')`, then the accumulation loop. -/
def create_remote_directory (s : FtpState) (path : String) :
    Except Unit (FtpState × List String) :=
  createDirLoop s "" (pySplit (pyStrip path))

/-- The accumulated running paths over a part list, skipping empty parts:
`accumFrom "" [a, b] = [a, a/b]`. -/
def accumFrom (current : String) : List String → List String
  | [] => []
  | part :: rest =>
    if part = "" then accumFrom current rest
    else (if current = "" then part else current ++ "/" ++ part)
      :: accumFrom (if current = "" then part else current ++ "/" ++ part) rest

/-- The spec's description of the Ensurer's creation targets (§4.2): "split
`remotePath` on `/`, discard empty segments, and accumulate a running path one
segment at a time (`a`, then `a/b`, then `a/b/c`, ...)". -/
def specEnsurePrefixes (path : String) : List String :=
  accumFrom "" ((pySplit path).filter (· ≠ ""))


/-- The accumulated path is never the root string `"/"` when parts are
slash-free (as the parts produced by `split('/')` always are). -/
theorem accumPath_ne_root (current part : String) (hpart : part ≠ "")
    (hslash : ('/' : Char) ∉ part.data) :
    (if current = "" then part else current ++ "/" ++ part) ≠ "/" := by
  by_cases hc : current = ""
  · rw [if_pos hc]
    intro h
    subst h
    exact hslash (by simp)
  · rw [if_neg hc]
    intro h
    have hd := congrArg String.data h
    rw [String.data_append, String.data_append] at hd
    have hroot : ("/" : String).data = ['/'] := rfl
    rw [hroot] at hd
    have hlen := congrArg List.length hd
    rw [List.length_append, List.length_append] at hlen
    simp only [List.length_cons, List.length_nil] at hlen
    have h1 : 0 < current.data.length := by
      rcases Nat.eq_zero_or_pos current.data.length with h0 | h0
      · exfalso
        apply hc
        cases current with
        | mk d =>
          have hnil : d = [] := List.length_eq_zero.mp h0
          subst hnil
          rfl
      · exact h0
    omega


/-- Characterization of a successful `MKD`. -/
theorem ftpMkd_ok_iff (s : FtpState) (p : String) (s2 : FtpState) :
    ftpMkd s p = .ok s2 ↔
      ¬(p ∈ s.dirs ∨ p ∈ s.denied) ∧ s2 = { s with dirs := p :: s.dirs } := by
  unfold ftpMkd
  split
  · rename_i hc
    simp [hc]
  · rename_i hc
    simp [hc, eq_comm]

/-- Characterization of a successful `CWD`. -/
theorem ftpCwd_ok_iff (s : FtpState) (p : String) (s2 : FtpState) :
    ftpCwd s p = .ok s2 ↔ (p = "/" ∨ p ∈ s.dirs) ∧ s2 = { s with cwd := p } := by
  unfold ftpCwd
  split
  · rename_i hc
    simp [hc, eq_comm]
  · rename_i hc
    simp [hc]

/-- Invariants of a successful `createDirLoop` run: the attempted-creation
trace is exactly the accumulated non-empty-part prefixes; the final working
directory is either untouched or the root; the directory set only grows; every
attempted path exists afterwards; the denied set is untouched. -/
theorem createDirLoop_ok_spec : ∀ (parts : List String) (s : FtpState) (current : String)
    (s' : FtpState) (tr : List String),
    (∀ part ∈ parts, ('/' : Char) ∉ part.data) →
    createDirLoop s current parts = .ok (s', tr) →
    tr = accumFrom current parts ∧ (s'.cwd = s.cwd ∨ s'.cwd = "/") ∧
      (∀ x ∈ s.dirs, x ∈ s'.dirs) ∧ (∀ x ∈ tr, x ∈ s'.dirs) ∧ s'.denied = s.denied := by
  intro parts
  induction parts with
  | nil =>
    intro s current s' tr _ h
    simp only [createDirLoop] at h
    cases h
    simp [accumFrom]
  | cons part rest ih =>
    intro s current s' tr hp h
    have hprest : ∀ q ∈ rest, ('/' : Char) ∉ q.data :=
      fun q hq => hp q (List.mem_cons_of_mem part hq)
    have hppart : ('/' : Char) ∉ part.data := hp part (List.mem_cons_self part rest)
    simp only [createDirLoop] at h
    rw [accumFrom]
    by_cases hpe : part = ""
    · rw [if_pos hpe] at h ⊢
      exact ih s current s' tr hprest h
    · rw [if_neg hpe] at h ⊢
      cases hmkd : ftpMkd s (if current = "" then part else current ++ "/" ++ part) with
      | ok s2 =>
        rw [hmkd] at h
        dsimp only [] at h
        cases hloop : createDirLoop s2 (if current = "" then part else current ++ "/" ++ part) rest with
        | ok pr =>
          obtain ⟨s3, tr0⟩ := pr
          rw [hloop] at h
          dsimp only [] at h
          simp only [Except.ok.injEq, Prod.mk.injEq] at h
          obtain ⟨h1, h2⟩ := h
          subst h1
          subst h2
          obtain ⟨hnm, hs2⟩ := (ftpMkd_ok_iff s _ s2).mp hmkd
          have hcwd2 : s2.cwd = s.cwd := by rw [hs2]
          have hdirs2 : s2.dirs
              = (if current = "" then part else current ++ "/" ++ part) :: s.dirs := by rw [hs2]
          have hden2 : s2.denied = s.denied := by rw [hs2]
          rcases ih s2 _ s3 tr0 hprest hloop with ⟨g1, g2, g3, g4, g5⟩
          refine ⟨by rw [g1], ?_, ?_, ?_, ?_⟩
          · rcases g2 with g2 | g2
            · left
              rw [g2, hcwd2]
            · right
              exact g2
          · intro x hx
            apply g3
            rw [hdirs2]
            exact List.mem_cons_of_mem _ hx
          · intro x hx
            rcases List.mem_cons.mp hx with rfl | hx2
            · apply g3
              rw [hdirs2]
              exact List.mem_cons_self _ _
            · exact g4 x hx2
          · rw [g5, hden2]
        | error e =>
          rw [hloop] at h
          dsimp only [] at h
          cases h
      | error e =>
        rw [hmkd] at h
        dsimp only [] at h
        cases hcwd : ftpCwd s (if current = "" then part else current ++ "/" ++ part) with
        | ok s2 =>
          rw [hcwd] at h
          dsimp only [] at h
          cases hcwd2 : ftpCwd s2 "/" with
          | ok s3 =>
            rw [hcwd2] at h
            dsimp only [] at h
            cases hloop : createDirLoop s3 (if current = "" then part else current ++ "/" ++ part) rest with
            | ok pr =>
              obtain ⟨s4, tr0⟩ := pr
              rw [hloop] at h
              dsimp only [] at h
              simp only [Except.ok.injEq, Prod.mk.injEq] at h
              obtain ⟨h1, h2⟩ := h
              subst h1
              subst h2
              obtain ⟨hcond, hs2⟩ := (ftpCwd_ok_iff s _ s2).mp hcwd
              obtain ⟨_, hs3⟩ := (ftpCwd_ok_iff s2 _ s3).mp hcwd2
              have hc2 : (if current = "" then part else current ++ "/" ++ part) ∈ s.dirs := by
                rcases hcond with hcond | hcond
                · exact absurd hcond (accumPath_ne_root current part hpe hppart)
                · exact hcond
              have hs3c : s3.cwd = "/" := by rw [hs3]
              have hs3d : s3.dirs = s.dirs := by rw [hs3, hs2]
              have hs3n : s3.denied = s.denied := by rw [hs3, hs2]
              rcases ih s3 _ s4 tr0 hprest hloop with ⟨g1, g2, g3, g4, g5⟩
              refine ⟨by rw [g1], ?_, ?_, ?_, ?_⟩
              · right
                rcases g2 with g2 | g2
                · rw [g2, hs3c]
                · exact g2
              · intro x hx
                apply g3
                rw [hs3d]
                exact hx
              · intro x hx
                rcases List.mem_cons.mp hx with rfl | hx2
                · apply g3
                  rw [hs3d]
                  exact hc2
                · exact g4 x hx2
              · rw [g5, hs3n]
            | error e2 =>
              rw [hloop] at h
              dsimp only [] at h
              cases h
          | error e2 =>
            rw [hcwd2] at h
            dsimp only [] at h
            cases h
        | error e2 =>
          rw [hcwd] at h
          dsimp only [] at h
          cases h

/-- When every accumulated prefix already exists and the session sits at the
root, `createDirLoop` succeeds without changing the session state at all: each
`MKD` fails with `error_perm`, each probe `CWD` succeeds, and the final
`CWD '/'` restores the root. -/
theorem createDirLoop_all_exist : ∀ (parts : List String) (s : FtpState) (current : String),
    (∀ part ∈ parts, ('/' : Char) ∉ part.data) →
    s.cwd = "/" →
    (∀ x ∈ accumFrom current parts, x ∈ s.dirs) →
    createDirLoop s current parts = .ok (s, accumFrom current parts) := by
  intro parts
  induction parts with
  | nil =>
    intro s current _ _ _
    simp [createDirLoop, accumFrom]
  | cons part rest ih =>
    intro s current hp hcwd hall
    have hprest : ∀ q ∈ rest, ('/' : Char) ∉ q.data :=
      fun q hq => hp q (List.mem_cons_of_mem part hq)
    have hppart : ('/' : Char) ∉ part.data := hp part (List.mem_cons_self part rest)
    simp only [createDirLoop]
    by_cases hpe : part = ""
    · rw [if_pos hpe]
      rw [accumFrom, if_pos hpe] at hall ⊢
      exact ih s current hprest hcwd hall
    · rw [if_neg hpe]
      rw [accumFrom, if_neg hpe] at hall ⊢
      have hcur : (if current = "" then part else current ++ "/" ++ part) ∈ s.dirs :=
        hall _ (List.mem_cons_self _ _)
      have hmkd : ftpMkd s (if current = "" then part else current ++ "/" ++ part) = .error () := by
        unfold ftpMkd
        rw [if_pos (Or.inl hcur)]
      rw [hmkd]
      dsimp only []
      have hcwd1 : ftpCwd s (if current = "" then part else current ++ "/" ++ part)
          = .ok { s with cwd := (if current = "" then part else current ++ "/" ++ part) } := by
        unfold ftpCwd
        rw [if_pos (Or.inr hcur)]
      rw [hcwd1]
      dsimp only []
      have hcwd2 : ftpCwd { s with cwd := (if current = "" then part else current ++ "/" ++ part) } "/"
          = .ok s := by
        unfold ftpCwd
        rw [if_pos (Or.inl rfl)]
        have : ({ { s with cwd := (if current = "" then part else current ++ "/" ++ part) } with cwd := "/" } : FtpState) = s := by
          cases s with
          | mk c d n =>
            have hc : c = "/" := hcwd
            rw [hc]
        rw [this]
      rw [hcwd2]
      dsimp only []
      have hrec := ih s (if current = "" then part else current ++ "/" ++ part) hprest hcwd
        (fun x hx => hall x (List.mem_cons_of_mem _ hx))
      rw [hrec]

/-- Empty parts never contribute to the accumulation. -/
theorem accumFrom_filter (current : String) (parts : List String) :
    accumFrom current parts = accumFrom current (parts.filter (· ≠ "")) := by
  induction parts generalizing current with
  | nil => rfl
  | cons part rest ih =>
    by_cases hpe : part = ""
    · subst hpe
      rw [accumFrom, if_pos rfl]
      have hf : (("" : String) :: rest).filter (· ≠ "") = rest.filter (· ≠ "") := by simp
      rw [hf]
      exact ih current
    · have hf : (part :: rest).filter (· ≠ "") = part :: rest.filter (· ≠ "") := by
        simp [hpe]
      rw [hf, accumFrom, if_neg hpe, accumFrom, if_neg hpe]
      rw [ih]

/-- Filtering out empty strings commutes with packing character lists into
strings. -/
theorem filter_ne_empty_map_mk (L : List (List Char)) :
    ((L.map String.mk).filter (· ≠ "")) = (L.filter (· ≠ [])).map String.mk := by
  induction L with
  | nil => rfl
  | cons g gs ih =>
    by_cases hg : g = []
    · subst hg
      have h1 : (String.mk [] : String) = "" := rfl
      simp [h1]
      simpa using ih
    · have hne : String.mk g ≠ "" := by
        intro h
        apply hg
        have h2 := congrArg String.data h
        simpa using h2
      simp [hne, hg]
      simpa using ih

/-- Discarding empty segments, splitting the stripped path equals splitting
the raw path: leading, trailing and repeated slashes only ever produce empty
segments. -/
theorem pySplit_strip_filter (path : String) :
    (pySplit (pyStrip path)).filter (· ≠ "") = (pySplit path).filter (· ≠ "") := by
  unfold pySplit pyStrip
  rw [filter_ne_empty_map_mk, filter_ne_empty_map_mk]
  have hdata : (String.mk (stripChar '/' path.data)).data = stripChar '/' path.data := rfl
  rw [hdata, splitChar_filter_stripChar]

/-- The parts produced by `pySplit` contain no slash. -/
theorem pySplit_no_slash (s : String) : ∀ p ∈ pySplit s, ('/' : Char) ∉ p.data := by
  intro p hp
  unfold pySplit at hp
  rcases List.mem_map.mp hp with ⟨g, hg, rfl⟩
  exact splitChar_not_mem_sep '/' s.data g hg

/-- C6: for every remote path string, a completing `create_remote_directory`
call attempts remote creation of exactly the accumulated non-empty-segment
prefixes of the path, one segment at a time in order from shortest to longest
(`a`, then `a/b`, then `a/b/c`), discarding the empty segments produced by
leading, trailing, or repeated slashes. -/
theorem create_remote_directory_targets (s : FtpState) (path : String)
    (s' : FtpState) (tr : List String)
    (h : create_remote_directory s path = .ok (s', tr)) :
    tr = specEnsurePrefixes path := by
  unfold create_remote_directory at h
  have hs := createDirLoop_ok_spec (pySplit (pyStrip path)) s "" s' tr
    (pySplit_no_slash (pyStrip path)) h
  rw [hs.1, specEnsurePrefixes]
  rw [accumFrom_filter "" (pySplit (pyStrip path)), pySplit_strip_filter]

/-- Witness for C6 at a concrete input: ensuring `"/a//b/"` from a fresh
session attempts exactly `a` then `a/b`. -/
theorem create_remote_directory_targets_witness :
    create_remote_directory ⟨"/", [], []⟩ "/a//b/"
        = .ok (⟨"/", ["a/b", "a"], []⟩, ["a", "a/b"]) ∧
      ["a", "a/b"] = specEnsurePrefixes "/a//b/" := by
  constructor
  · rfl
  · exact create_remote_directory_targets ⟨"/", [], []⟩ "/a//b/" ⟨"/", ["a/b", "a"], []⟩
      ["a", "a/b"] (by rfl)

/-- Counterexample to C1 as stated: a successful call of the Directory
Ensurer made while the session's working directory is `"d"` (and the first
path prefix `"a"` already exists, so the probe-then-restore branch runs)
finishes with the working directory at `"/"`, not at `"d"`: the code's
"restore" step is `ftp.cwd('/')`, which returns to the root rather than to
the caller's prior working directory. -/
theorem create_remote_directory_cwd_counterexample :
    create_remote_directory ⟨"d", ["a"], []⟩ "a"
        = .ok (⟨"/", ["a"], []⟩, ["a"]) ∧ ("/" : String) ≠ "d" :=
  ⟨rfl, by decide⟩

/-- C1 (amended): the Ensurer restores the session to the root `"/"`, not to
the arbitrary prior working directory; therefore, whenever a call starts with
the working directory at the root — as every call in this program does — a
successful call leaves the working directory unchanged, and immediately
re-running the Ensurer on the same path is a no-op: it succeeds with the
identical session state and the identical attempted-creation trace. -/
theorem create_remote_directory_root_invariant (s : FtpState) (path : String)
    (s' : FtpState) (tr : List String)
    (hroot : s.cwd = "/")
    (h : create_remote_directory s path = .ok (s', tr)) :
    s'.cwd = s.cwd ∧ create_remote_directory s' path = .ok (s', tr) := by
  unfold create_remote_directory at h ⊢
  have hs := createDirLoop_ok_spec _ s "" s' tr (pySplit_no_slash (pyStrip path)) h
  obtain ⟨htr, hcwd, hmono, htrd, hden⟩ := hs
  have hcwd' : s'.cwd = "/" := by
    rcases hcwd with hc | hc
    · rw [hc, hroot]
    · exact hc
  refine ⟨by rw [hcwd', hroot], ?_⟩
  have hall : ∀ x ∈ accumFrom "" (pySplit (pyStrip path)), x ∈ s'.dirs := by
    intro x hx
    exact htrd x (htr ▸ hx)
  have hrun := createDirLoop_all_exist (pySplit (pyStrip path)) s' ""
    (pySplit_no_slash (pyStrip path)) hcwd' hall
  rw [hrun, htr]

/-- Witness for the amended C1 at a concrete input: ensuring `"a/b"` from a
fresh root session keeps the working directory at the root, and a second run
is a state-preserving no-op. -/
theorem create_remote_directory_root_invariant_witness :
    ((⟨"/", [], []⟩ : FtpState).cwd = "/") ∧
    ((⟨"/", ["a/b", "a"], []⟩ : FtpState).cwd = (⟨"/", [], []⟩ : FtpState).cwd ∧
      create_remote_directory ⟨"/", ["a/b", "a"], []⟩ "a/b"
        = .ok (⟨"/", ["a/b", "a"], []⟩, ["a", "a/b"])) :=
  ⟨rfl, create_remote_directory_root_invariant ⟨"/", [], []⟩ "a/b"
    ⟨"/", ["a/b", "a"], []⟩ ["a", "a/b"] rfl (by rfl)⟩

/-! ## Remote Cleaner (`AppDeployer.clean_remote_directory` /
`remove_directory`, deploy_app.py lines 143-192)

The remote target directory's current contents are an `RForest` (the fused
ordered list of entries, as `NLST` reports them, without the `.`/`..`
pseudo-entries the code filters out).  A file entry carries the environment's
verdict `locked`: `ftp.delete` succeeds exactly on a file that is not locked
and raises `error_perm` otherwise (deleting a directory always raises
`error_perm`); `ftp.rmd` succeeds exactly on an emptied directory;
`ftp.cwd` into a file raises `error_perm`.  `remove_directory` wraps its
whole body in a bare `except: pass`, so it never raises and prints nothing;
consequently in `clean_remote_directory` the `print` after
`self.remove_directory(item)` always runs and the inner
`except: print("⚠️ Could not delete: ...")` handler is unreachable. -/

inductive RForest where
  | nil : RForest
  | fcons (name : String) (locked : Bool) (rest : RForest) : RForest
  | dcons (name : String) (children : RForest) (rest : RForest) : RForest
deriving Repr, DecidableEq

/-- The console messages `clean_remote_directory` can print, one constructor
per `print` call in the source (lines 159, 164, 166, 173). -/
inductive CleanMsg where
  | deletedFile (name : String) : CleanMsg
  | deletedDir (name : String) : CleanMsg
  | couldNotDelete (name : String) : CleanMsg
  | noSuchDir : CleanMsg
deriving Repr, DecidableEq

/-- The loop body of `AppDeployer.remove_directory` over the listed entries:
try `ftp.delete` (succeeds only on an unlocked file); on `error_perm`,
recursively `remove_directory` the entry — which, run on a file, fails its
initial `cwd` and is swallowed by the bare `except`, leaving the file in
place; run on a directory, empties what it can and then `ftp.rmd` succeeds
only if nothing is left.  Returns what remains.  No message is ever
printed. -/
def remove_children : RForest → RForest
  | .nil => .nil
  | .fcons name locked rest =>
    if locked then .fcons name locked (remove_children rest)
    else remove_children rest
  | .dcons name children rest =>
    match remove_children children with
    | .nil => remove_children rest
    | ch => .dcons name ch (remove_children rest)

/-- The per-entry loop of `AppDeployer.clean_remote_directory`: try
`ftp.delete`; on `error_perm` call `remove_directory` — which returns
normally whether or not it managed to delete anything — and then print
`Deleted directory`.  The `Could not delete` branch is unreachable (see the
section comment), so every entry is reported as deleted even when it
remains. -/
def clean_children : RForest → RForest × List CleanMsg
  | .nil => (.nil, [])
  | .fcons name locked rest =>
    if locked then
      (.fcons name locked (clean_children rest).1,
       .deletedDir name :: (clean_children rest).2)
    else
      ((clean_children rest).1, .deletedFile name :: (clean_children rest).2)
  | .dcons name children rest =>
    match remove_children children with
    | .nil => ((clean_children rest).1, .deletedDir name :: (clean_children rest).2)
    | ch => (.dcons name ch (clean_children rest).1,
             .deletedDir name :: (clean_children rest).2)

/-- `AppDeployer.clean_remote_directory`: `ftp.cwd(remote_path)` raises
`error_perm` when the target does not exist (`none`), which the code treats
as a no-op success, printing only the `doesn't exist` note; otherwise the
entries are processed in order and the session returns to the root.  Returns
the remaining contents and the printed log. -/
def clean_remote_directory : Option RForest → Option RForest × List CleanMsg
  | none => (none, [CleanMsg.noSuchDir])
  | some f => (some (clean_children f).1, (clean_children f).2)

/-! ## Tree Uploader (`AppDeployer.upload_file` / `upload_directory`,
deploy_app.py lines 104-141)

The local directory tree is modelled as a `Forest`: the ordered children of a
directory as `local_dir.iterdir()` yields them.  A file node carries the
environment's verdict on its transfer (`ok = true` iff `ftp.storbinary`
succeeds; `upload_file` catches every exception and returns `False`).  Remote
and local paths are segment lists; appending a child is the code's
`f"{remote_dir}/{item.name}"` (names never contain a slash).  The event trace
records, in program order, every FTP command and console message the code
issues: `mkd` for `ftp.mkd` attempts (tolerated on `error_perm`), `stor` for
`upload_file` outcomes (printing the failure message when `ok = false`), and
`skip` for excluded children. -/

inductive Forest where
  | nil : Forest
  | fcons (name : String) (ok : Bool) (rest : Forest) : Forest
  | dcons (name : String) (children : Forest) (rest : Forest) : Forest
deriving Repr, DecidableEq

inductive Ev where
  | mkd (p : List String) : Ev
  | stor (p : List String) (ok : Bool) : Ev
  | skip (name : String) : Ev
  | skipMissing (name : String) : Ev
  | cleanMsg (m : CleanMsg) : Ev
deriving Repr, DecidableEq

/-- `str(path)` for a local path given as segments (POSIX separator). -/
def joinPath (segs : List String) : String := String.intercalate "/" segs

/-- `AppDeployer.upload_directory`: iterate over the children; skip excluded
ones; upload files, counting successes; for directories attempt `ftp.mkd`
(ignoring `error_perm`) and recurse, adding the sub-count.  The first
component is the Python return value `uploaded_count`; the second is the
event trace. -/
def upload_directory (patterns : List String) :
    Forest → List String → List String → Nat × List Ev
  | .nil, _, _ => (0, [])
  | .fcons name ok rest, localDir, remoteDir =>
    if should_exclude patterns (joinPath (localDir ++ [name])) name then
      ((upload_directory patterns rest localDir remoteDir).1,
       .skip name :: (upload_directory patterns rest localDir remoteDir).2)
    else
      ((if ok then 1 else 0) + (upload_directory patterns rest localDir remoteDir).1,
       .stor (remoteDir ++ [name]) ok
         :: (upload_directory patterns rest localDir remoteDir).2)
  | .dcons name children rest, localDir, remoteDir =>
    if should_exclude patterns (joinPath (localDir ++ [name])) name then
      ((upload_directory patterns rest localDir remoteDir).1,
       .skip name :: (upload_directory patterns rest localDir remoteDir).2)
    else
      ((upload_directory patterns children (localDir ++ [name]) (remoteDir ++ [name])).1
         + (upload_directory patterns rest localDir remoteDir).1,
       .mkd (remoteDir ++ [name])
         :: ((upload_directory patterns children (localDir ++ [name]) (remoteDir ++ [name])).2
             ++ (upload_directory patterns rest localDir remoteDir).2))

/-- The paths of the files whose transfer failed, read off the emitted log
(the code prints `❌ Failed to upload ...` exactly for these). -/
def failedPaths (tr : List Ev) : List (List String) :=
  tr.filterMap fun e =>
    match e with
    | .stor p false => some p
    | _ => none

/-- Spec-side success count (§4.3): one per non-excluded file child whose
transfer succeeds, summed across the whole recursion. -/
def specSuccessCount (patterns : List String) : Forest → List String → Nat
  | .nil, _ => 0
  | .fcons name ok rest, localDir =>
    (if should_exclude patterns (joinPath (localDir ++ [name])) name then 0
     else if ok then 1 else 0) + specSuccessCount patterns rest localDir
  | .dcons name children rest, localDir =>
    (if should_exclude patterns (joinPath (localDir ++ [name])) name then 0
     else specSuccessCount patterns children (localDir ++ [name]))
      + specSuccessCount patterns rest localDir

/-- Spec-side failure list (§4.3): the remote path of every non-excluded file
child whose transfer fails, in traversal order. -/
def specFailureList (patterns : List String) :
    Forest → List String → List String → List (List String)
  | .nil, _, _ => []
  | .fcons name ok rest, localDir, remoteDir =>
    (if should_exclude patterns (joinPath (localDir ++ [name])) name then []
     else if ok then [] else [remoteDir ++ [name]])
      ++ specFailureList patterns rest localDir remoteDir
  | .dcons name children rest, localDir, remoteDir =>
    (if should_exclude patterns (joinPath (localDir ++ [name])) name then []
     else specFailureList patterns children (localDir ++ [name]) (remoteDir ++ [name]))
      ++ specFailureList patterns rest localDir remoteDir

theorem failedPaths_append (a b : List Ev) :
    failedPaths (a ++ b) = failedPaths a ++ failedPaths b := by
  unfold failedPaths
  rw [List.filterMap_append]

/-- The Python return value of `upload_directory` is the spec's success
count. -/
theorem upload_directory_count (patterns : List String) (f : Forest)
    (localDir remoteDir : List String) :
    (upload_directory patterns f localDir remoteDir).1
      = specSuccessCount patterns f localDir := by
  induction f generalizing localDir remoteDir with
  | nil => rfl
  | fcons name ok rest ih =>
    rw [upload_directory, specSuccessCount]
    by_cases he : should_exclude patterns (joinPath (localDir ++ [name])) name = true
    · rw [if_pos he, if_pos he]
      simp [ih]
    · rw [if_neg he, if_neg he]
      simp [ih]
  | dcons name children rest ihc ih =>
    rw [upload_directory, specSuccessCount]
    by_cases he : should_exclude patterns (joinPath (localDir ++ [name])) name = true
    · rw [if_pos he, if_pos he]
      simp [ih]
    · rw [if_neg he, if_neg he]
      simp [ih, ihc]

/-- The failure log of `upload_directory` is the spec's failure list. -/
theorem upload_directory_failed (patterns : List String) (f : Forest)
    (localDir remoteDir : List String) :
    failedPaths (upload_directory patterns f localDir remoteDir).2
      = specFailureList patterns f localDir remoteDir := by
  induction f generalizing localDir remoteDir with
  | nil => rfl
  | fcons name ok rest ih =>
    rw [upload_directory, specFailureList]
    by_cases he : should_exclude patterns (joinPath (localDir ++ [name])) name = true
    · rw [if_pos he, if_pos he]
      simpa [failedPaths] using ih localDir remoteDir
    · rw [if_neg he, if_neg he]
      cases ok with
      | true => simpa [failedPaths] using ih localDir remoteDir
      | false =>
        simp only [failedPaths, List.filterMap_cons]
        rw [← failedPaths, ih localDir remoteDir]
        simp
  | dcons name children rest ihc ih =>
    rw [upload_directory, specFailureList]
    by_cases he : should_exclude patterns (joinPath (localDir ++ [name])) name = true
    · rw [if_pos he, if_pos he]
      simpa [failedPaths] using ih localDir remoteDir
    · rw [if_neg he, if_neg he]
      simp only [failedPaths, List.filterMap_cons]
      rw [← failedPaths, failedPaths_append, ihc, ih]

/-- C2 (amended): `upload_directory` returns the total count of successful
uploads across the whole recursion, and the console log records exactly the
failed items' remote paths; in particular, when exactly one file's transfer
throws an error, the logged failure list contains exactly that one path.  The
failure list is not part of the Python return value (see the
counterexample). -/
theorem upload_directory_aggregates (patterns : List String) (f : Forest)
    (localDir remoteDir : List String) :
    (upload_directory patterns f localDir remoteDir).1
        = specSuccessCount patterns f localDir ∧
      failedPaths (upload_directory patterns f localDir remoteDir).2
        = specFailureList patterns f localDir remoteDir :=
  ⟨upload_directory_count patterns f localDir remoteDir,
   upload_directory_failed patterns f localDir remoteDir⟩

/-- Counterexample to C2 as stated: two trees with different failure sets
(the second has an extra failing file `b`) produce the *same* Python return
value of `upload_directory`, so the return value cannot contain the failure
list — `upload_directory` returns only the success count; failures are only
printed. -/
theorem upload_directory_return_counterexample :
    (upload_directory [] (.fcons "a" true .nil) ["L"] ["R"]).1
        = (upload_directory [] (.fcons "a" true (.fcons "b" false .nil)) ["L"] ["R"]).1 ∧
      failedPaths (upload_directory [] (.fcons "a" true .nil) ["L"] ["R"]).2
        ≠ failedPaths (upload_directory [] (.fcons "a" true (.fcons "b" false .nil)) ["L"] ["R"]).2 := by
  constructor
  · rfl
  · decide

/-- Concatenation of child lists (`Forest` is the fused list of a directory's
children). -/
def Forest.append : Forest → Forest → Forest
  | .nil, g => g
  | .fcons name ok rest, g => .fcons name ok (rest.append g)
  | .dcons name children rest, g => .dcons name children (rest.append g)

/-- `upload_directory` distributes over sibling concatenation: counts add and
traces concatenate — processing never aborts between siblings. -/
theorem upload_directory_append (patterns : List String) (f g : Forest)
    (localDir remoteDir : List String) :
    upload_directory patterns (f.append g) localDir remoteDir
      = ((upload_directory patterns f localDir remoteDir).1
           + (upload_directory patterns g localDir remoteDir).1,
         (upload_directory patterns f localDir remoteDir).2
           ++ (upload_directory patterns g localDir remoteDir).2) := by
  induction f generalizing localDir remoteDir with
  | nil =>
    rw [Forest.append]
    simp [upload_directory]
  | fcons name ok rest ih =>
    rw [Forest.append, upload_directory, upload_directory]
    by_cases he : should_exclude patterns (joinPath (localDir ++ [name])) name = true
    · rw [if_pos he, if_pos he, ih]
      simp
    · rw [if_neg he, if_neg he, ih]
      simp [Nat.add_assoc]
  | dcons name children rest ih2 ih =>
    rw [Forest.append, upload_directory, upload_directory]
    by_cases he : should_exclude patterns (joinPath (localDir ++ [name])) name = true
    · rw [if_pos he, if_pos he, ih]
      simp
    · rw [if_neg he, if_neg he, ih]
      simp [Nat.add_assoc]

/-- C5: when one non-excluded child file's transfer raises an error, the
upload of all remaining sibling children still proceeds (the trace contains
the siblings' full trace after the failure event), the failed file does not
increment the success count (the total is the sum of the siblings' counts),
and each successfully transferred non-excluded sibling increments it by
exactly one (the counts equal the spec's per-item success counts). -/
theorem upload_directory_failure_continues (patterns : List String)
    (pre post : Forest) (name : String) (localDir remoteDir : List String)
    (hne : should_exclude patterns (joinPath (localDir ++ [name])) name = false) :
    (upload_directory patterns (pre.append (.fcons name false post)) localDir remoteDir).1
        = (upload_directory patterns pre localDir remoteDir).1
          + (upload_directory patterns post localDir remoteDir).1 ∧
      (upload_directory patterns (pre.append (.fcons name false post)) localDir remoteDir).2
        = (upload_directory patterns pre localDir remoteDir).2
          ++ .stor (remoteDir ++ [name]) false
            :: (upload_directory patterns post localDir remoteDir).2 ∧
      (upload_directory patterns pre localDir remoteDir).1
        = specSuccessCount patterns pre localDir ∧
      (upload_directory patterns post localDir remoteDir).1
        = specSuccessCount patterns post localDir := by
  rw [upload_directory_append]
  rw [upload_directory, if_neg (by rw [hne]; simp)]
  refine ⟨by simp, by simp, upload_directory_count patterns pre localDir remoteDir,
    upload_directory_count patterns post localDir remoteDir⟩

/-- Witness for C5 at a concrete input: among siblings `a` (succeeds), `b`
(fails), `c` (succeeds), the failure leaves the count at 2 and the trace
shows both siblings processed around the failure event. -/
theorem upload_directory_failure_continues_witness :
    should_exclude [] (joinPath (["L"] ++ ["b"])) "b" = false ∧
      ((upload_directory [] ((Forest.fcons "a" true .nil).append
          (.fcons "b" false (.fcons "c" true .nil))) ["L"] ["R"]).1
        = (upload_directory [] (.fcons "a" true .nil) ["L"] ["R"]).1
          + (upload_directory [] (.fcons "c" true .nil) ["L"] ["R"]).1 ∧
      (upload_directory [] ((Forest.fcons "a" true .nil).append
          (.fcons "b" false (.fcons "c" true .nil))) ["L"] ["R"]).2
        = (upload_directory [] (.fcons "a" true .nil) ["L"] ["R"]).2
          ++ .stor (["R"] ++ ["b"]) false
            :: (upload_directory [] (.fcons "c" true .nil) ["L"] ["R"]).2 ∧
      (upload_directory [] (.fcons "a" true .nil) ["L"] ["R"]).1
        = specSuccessCount [] (.fcons "a" true .nil) ["L"] ∧
      (upload_directory [] (.fcons "c" true .nil) ["L"] ["R"]).1
        = specSuccessCount [] (.fcons "c" true .nil) ["L"]) :=
  ⟨rfl, upload_directory_failure_continues [] (.fcons "a" true .nil)
    (.fcons "c" true .nil) "b" ["L"] ["R"] rfl⟩

/-! ## Create-before-upload ordering (C4) -/

/-- There is no list strictly between a prefix `rd` and its one-step
extension `rd ++ [a]` in the prefix order. -/
theorem no_strict_between {α : Type} (rd d : List α) (a : α)
    (h1 : rd <+: d) (h2 : d <+: rd ++ [a]) (hne1 : d ≠ rd) (hne2 : d ≠ rd ++ [a]) :
    False := by
  have l1 : rd.length ≤ d.length := h1.length_le
  have l2 : d.length ≤ rd.length + 1 := by
    have := h2.length_le
    simpa using this
  have l3 : d.length ≠ rd.length := by
    intro hl
    exact hne1 (h1.eq_of_length hl.symm).symm
  have l4 : d.length = rd.length + 1 := by omega
  exact hne2 (h2.eq_of_length (by simpa using l4))

/-- A prefix `d` of `big` lying strictly above `rd` either equals the one-step
extension `rd ++ [a]` or extends it, provided `rd ++ [a]` is itself a prefix
of `big`. -/
theorem prefix_step_cases {α : Type} (rd d big : List α) (a : α)
    (h1 : rd <+: d) (h2 : d <+: big) (h3 : (rd ++ [a]) <+: big) (hne : d ≠ rd) :
    d = rd ++ [a] ∨ (rd ++ [a]) <+: d := by
  rcases List.prefix_or_prefix_of_prefix h2 h3 with hc | hc
  · left
    have l1 : rd.length ≤ d.length := h1.length_le
    have l2 : d.length ≤ rd.length + 1 := by
      have := hc.length_le
      simpa using this
    have l3 : d.length ≠ rd.length := by
      intro hl
      exact hne (h1.eq_of_length hl.symm).symm
    exact hc.eq_of_length (by simp; omega)
  · right
    exact hc

/-- Splitting a concatenation at an occurrence that cannot lie in the first
part. -/
theorem append_split_right {α : Type} (A B t1 t2 : List α) (e : α)
    (h : A ++ B = t1 ++ e :: t2) (hnot : e ∉ A) :
    ∃ t1', t1 = A ++ t1' ∧ B = t1' ++ e :: t2 := by
  induction A generalizing t1 with
  | nil =>
    exact ⟨t1, rfl, h⟩
  | cons a A' ih =>
    cases t1 with
    | nil =>
      simp only [List.nil_append, List.cons.injEq] at h
      rcases h with ⟨rfl, -⟩
      exact absurd (List.mem_cons_self _ _) hnot
    | cons x t1' =>
      simp only [List.cons_append, List.cons.injEq] at h
      obtain ⟨hx, h2⟩ := h
      obtain ⟨t1'', ha, hb⟩ := ih t1' h2 (fun hm => hnot (List.mem_cons_of_mem a hm))
      exact ⟨t1'', by rw [List.cons_append, ha, hx], hb⟩

/-- Every `STOR` issued by `upload_directory` targets a path strictly below
the remote directory it was called with. -/
theorem upload_stor_shape (patterns : List String) :
    ∀ (f : Forest) (localDir remoteDir : List String) (p : List String) (ok : Bool),
    Ev.stor p ok ∈ (upload_directory patterns f localDir remoteDir).2 →
    ∃ suffix, suffix ≠ [] ∧ p = remoteDir ++ suffix := by
  intro f
  induction f with
  | nil =>
    intro localDir remoteDir p ok h
    simp [upload_directory] at h
  | fcons name ok2 rest ih =>
    intro localDir remoteDir p ok h
    rw [upload_directory] at h
    by_cases he : should_exclude patterns (joinPath (localDir ++ [name])) name = true
    · rw [if_pos he] at h
      simp only [List.mem_cons] at h
      rcases h with h | h
      · cases h
      · exact ih localDir remoteDir p ok h
    · rw [if_neg he] at h
      simp only [List.mem_cons] at h
      rcases h with h | h
      · obtain ⟨hp, _⟩ := Ev.stor.inj h
        exact ⟨[name], by simp, hp⟩
      · exact ih localDir remoteDir p ok h
  | dcons name children rest ihc ih =>
    intro localDir remoteDir p ok h
    rw [upload_directory] at h
    by_cases he : should_exclude patterns (joinPath (localDir ++ [name])) name = true
    · rw [if_pos he] at h
      simp only [List.mem_cons] at h
      rcases h with h | h
      · cases h
      · exact ih localDir remoteDir p ok h
    · rw [if_neg he] at h
      simp only [List.mem_cons, List.mem_append] at h
      rcases h with h | h | h
      · cases h
      · obtain ⟨suf, hsuf, hp⟩ := ihc (localDir ++ [name]) (remoteDir ++ [name]) p ok h
        exact ⟨name :: suf, by simp, by rw [hp]; simp⟩
      · exact ih localDir remoteDir p ok h

/-- Depth-first create-before-upload for `upload_directory`: at every `STOR`
occurrence in the trace, every directory strictly between the call's remote
root and the stored file's path has an earlier `MKD` attempt in the trace. -/
theorem upload_mkd_before_stor (patterns : List String) :
    ∀ (f : Forest) (localDir remoteDir : List String) (t1 t2 : List Ev)
      (p : List String) (ok : Bool),
    (upload_directory patterns f localDir remoteDir).2 = t1 ++ .stor p ok :: t2 →
    ∀ d, remoteDir <+: d → d <+: p → d ≠ remoteDir → d ≠ p → Ev.mkd d ∈ t1 := by
  intro f
  induction f with
  | nil =>
    intro localDir remoteDir t1 t2 p ok h
    rw [upload_directory] at h
    dsimp only [] at h
    exact absurd h.symm (by simp)
  | fcons name ok2 rest ih =>
    intro localDir remoteDir t1 t2 p ok h
    rw [upload_directory] at h
    by_cases he : should_exclude patterns (joinPath (localDir ++ [name])) name = true
    · rw [if_pos he] at h
      dsimp only [] at h
      cases t1 with
      | nil =>
        simp only [List.nil_append, List.cons.injEq] at h
        exact Ev.noConfusion h.1
      | cons x t1' =>
        simp only [List.cons_append, List.cons.injEq] at h
        rcases h with ⟨-, h2⟩
        intro d hd1 hd2 hd3 hd4
        exact List.mem_cons_of_mem x (ih localDir remoteDir t1' t2 p ok h2 d hd1 hd2 hd3 hd4)
    · rw [if_neg he] at h
      dsimp only [] at h
      cases t1 with
      | nil =>
        simp only [List.nil_append, List.cons.injEq] at h
        rcases h with ⟨h1, -⟩
        obtain ⟨hp, -⟩ := Ev.stor.inj h1
        intro d hd1 hd2 hd3 hd4
        subst hp
        exact (no_strict_between remoteDir d name hd1 hd2 hd3 hd4).elim
      | cons x t1' =>
        simp only [List.cons_append, List.cons.injEq] at h
        rcases h with ⟨-, h2⟩
        intro d hd1 hd2 hd3 hd4
        exact List.mem_cons_of_mem x (ih localDir remoteDir t1' t2 p ok h2 d hd1 hd2 hd3 hd4)
  | dcons name children rest ihc ih =>
    intro localDir remoteDir t1 t2 p ok h
    rw [upload_directory] at h
    by_cases he : should_exclude patterns (joinPath (localDir ++ [name])) name = true
    · rw [if_pos he] at h
      dsimp only [] at h
      cases t1 with
      | nil =>
        simp only [List.nil_append, List.cons.injEq] at h
        exact Ev.noConfusion h.1
      | cons x t1' =>
        simp only [List.cons_append, List.cons.injEq] at h
        rcases h with ⟨-, h2⟩
        intro d hd1 hd2 hd3 hd4
        exact List.mem_cons_of_mem x (ih localDir remoteDir t1' t2 p ok h2 d hd1 hd2 hd3 hd4)
    · rw [if_neg he] at h
      dsimp only [] at h
      cases t1 with
      | nil =>
        simp only [List.nil_append, List.cons.injEq] at h
        exact Ev.noConfusion h.1
      | cons x t1' =>
        simp only [List.cons_append, List.cons.injEq] at h
        rcases h with ⟨hx, h2⟩
        intro d hd1 hd2 hd3 hd4
        rcases List.append_eq_append_iff.mp h2 with ⟨a', ha1, ha2⟩ | ⟨c', hc1, hc2⟩
        · subst ha1
          have hm := ih localDir remoteDir a' t2 p ok ha2 d hd1 hd2 hd3 hd4
          exact List.mem_cons_of_mem x (List.mem_append_right _ hm)
        · cases c' with
          | nil =>
            rw [List.nil_append] at hc2
            have hT : (upload_directory patterns rest localDir remoteDir).2
                = [] ++ Ev.stor p ok :: t2 := by
              rw [List.nil_append]
              exact hc2.symm
            have hm := ih localDir remoteDir [] t2 p ok hT d hd1 hd2 hd3 hd4
            exact absurd hm (List.not_mem_nil _)
          | cons y c'' =>
            simp only [List.cons_append, List.cons.injEq] at hc2
            rcases hc2 with ⟨hy, -⟩
            subst hy
            have hmem : Ev.stor p ok
                ∈ (upload_directory patterns children (localDir ++ [name]) (remoteDir ++ [name])).2 := by
              rw [hc1]
              exact List.mem_append_right _ (List.mem_cons_self _ _)
            obtain ⟨suf, hsufne, hpsuf⟩ :=
              upload_stor_shape patterns children (localDir ++ [name]) (remoteDir ++ [name]) p ok hmem
            have hpref : (remoteDir ++ [name]) <+: p := ⟨suf, hpsuf.symm⟩
            by_cases hdq : d = remoteDir ++ [name]
            · rw [hdq, hx]
              exact List.mem_cons_self _ _
            · rcases prefix_step_cases remoteDir d p name hd1 hd2 hpref hd3 with hdeq | hdext
              · exact absurd hdeq hdq
              · have hm := ihc (localDir ++ [name]) (remoteDir ++ [name]) t1' c'' p ok hc1
                  d hdext hd2 hdq hd4
                exact List.mem_cons_of_mem x hm

/-! ## Deployment Orchestrator (`AppDeployer.deploy` / `main`,
deploy_app.py lines 194-294)

`deploy` works through: credentials check → connect → login → ensure the
remote root → optional clean → upload the configured top-level items.
The environment supplies the outcome of each fallible step: `credsOk`
(`check_credentials`), `connectOk` (`ftplib.FTP(host)`), `loginOk`
(`ftp.login`), the remote directory state `Remote` for the root ensure, the
clean target's current contents, and the per-file transfer verdicts inside
the items.  `ftplib` errors escaping any step are caught by the surrounding
`except`, making `deploy` return `False`; per-file upload failures are caught
inside `upload_file` and never escape.  A top-level item whose local path
does not exist is skipped with a console note (lines 224-226); note that
`deploy` applies no exclusion check to top-level items themselves. -/

inductive TopItem where
  | missing (name : String) : TopItem
  | file (name : String) (ok : Bool) : TopItem
  | dir (name : String) (children : Forest) : TopItem
deriving Repr, DecidableEq

/-- The upload loop of `AppDeployer.deploy` (lines 221-243) over the
configured `upload_items`: skip a missing local item; upload a file, counting
success; for a directory attempt `ftp.mkd` (tolerating `error_perm`) and
upload its contents with `upload_directory`.  First component: the final
`total_uploaded`; second: the event trace. -/
def deploy_items (patterns : List String) (localRoot remoteRoot : List String) :
    List TopItem → Nat × List Ev
  | [] => (0, [])
  | .missing name :: rest =>
    ((deploy_items patterns localRoot remoteRoot rest).1,
     .skipMissing name :: (deploy_items patterns localRoot remoteRoot rest).2)
  | .file name ok :: rest =>
    ((if ok then 1 else 0) + (deploy_items patterns localRoot remoteRoot rest).1,
     .stor (remoteRoot ++ [name]) ok
       :: (deploy_items patterns localRoot remoteRoot rest).2)
  | .dir name children :: rest =>
    ((upload_directory patterns children (localRoot ++ [name]) (remoteRoot ++ [name])).1
       + (deploy_items patterns localRoot remoteRoot rest).1,
     .mkd (remoteRoot ++ [name])
       :: ((upload_directory patterns children (localRoot ++ [name]) (remoteRoot ++ [name])).2
           ++ (deploy_items patterns localRoot remoteRoot rest).2))

/-- The remote store as the deploy-level model sees it: existing directories
and permission-denied paths, as segment lists. -/
structure Remote where
  dirs : List (List String)
  denied : List (List String)
deriving Repr, DecidableEq

/-- `create_remote_directory` at the segment level, as called by `deploy` on
the remote root: for each accumulated prefix attempt `MKD`; on `error_perm`
(already exists) probe by `CWD` and return to the root; if the prefix is
denied and absent the probe fails too and the exception propagates (`none`).
The returned trace records the attempted creations in order.  (The
string-level model `create_remote_directory` is related to this by
`create_remote_directory_targets`: both attempt exactly the accumulated
prefixes.) -/
def ensure_segments (r : Remote) (acc : List String) :
    List String → Option (Remote × List Ev)
  | [] => some (r, [])
  | seg :: rest =>
    if (acc ++ [seg]) ∈ r.dirs then
      match ensure_segments r (acc ++ [seg]) rest with
      | some (r2, tr) => some (r2, .mkd (acc ++ [seg]) :: tr)
      | none => none
    else if (acc ++ [seg]) ∈ r.denied then none
    else
      match ensure_segments { r with dirs := (acc ++ [seg]) :: r.dirs } (acc ++ [seg]) rest with
      | some (r2, tr) => some (r2, .mkd (acc ++ [seg]) :: tr)
      | none => none

/-- `AppDeployer.deploy`: returns the Python return value (`True` on a run
whose fatal steps all succeed, `False` otherwise), the reported
`total_uploaded`, and the event trace of the run. -/
def deploy (credsOk connectOk loginOk : Bool) (r : Remote) (rootSegs : List String)
    (cleanFlag : Bool) (cleanTarget : Option RForest)
    (patterns : List String) (localRoot : List String) (items : List TopItem) :
    Bool × Nat × List Ev :=
  if ¬credsOk then (false, 0, [])
  else if ¬connectOk then (false, 0, [])
  else if ¬loginOk then (false, 0, [])
  else
    match ensure_segments r [] rootSegs with
    | none => (false, 0, [])
    | some (_, tr1) =>
      (true, (deploy_items patterns localRoot rootSegs items).1,
       tr1 ++ (if cleanFlag then (clean_remote_directory cleanTarget).2.map Ev.cleanMsg else [])
         ++ (deploy_items patterns localRoot rootSegs items).2)

/-- `main` (lines 259-294), deployment path: `sys.exit(0 if success else 1)`. -/
def main_exit (credsOk connectOk loginOk : Bool) (r : Remote) (rootSegs : List String)
    (cleanFlag : Bool) (cleanTarget : Option RForest)
    (patterns : List String) (localRoot : List String) (items : List TopItem) : Nat :=
  if (deploy credsOk connectOk loginOk r rootSegs cleanFlag cleanTarget
        patterns localRoot items).1 then 0 else 1

/-- The list of accumulated prefixes attempted by `ensure_segments`. -/
def segPrefixes (acc : List String) : List String → List (List String)
  | [] => []
  | seg :: rest => (acc ++ [seg]) :: segPrefixes (acc ++ [seg]) rest

/-- A successful `ensure_segments` run attempts `MKD` on exactly the
accumulated prefixes, in order. -/
theorem ensure_segments_trace : ∀ (segs : List String) (r : Remote) (acc : List String)
    (r2 : Remote) (tr : List Ev),
    ensure_segments r acc segs = some (r2, tr) →
    tr = (segPrefixes acc segs).map Ev.mkd := by
  intro segs
  induction segs with
  | nil =>
    intro r acc r2 tr h
    simp only [ensure_segments] at h
    cases h
    rfl
  | cons seg rest ih =>
    intro r acc r2 tr h
    simp only [ensure_segments] at h
    rw [segPrefixes]
    by_cases h1 : (acc ++ [seg]) ∈ r.dirs
    · rw [if_pos h1] at h
      cases hrec : ensure_segments r (acc ++ [seg]) rest with
      | some pr =>
        obtain ⟨r3, tr3⟩ := pr
        rw [hrec] at h
        dsimp only [] at h
        simp only [Option.some.injEq, Prod.mk.injEq] at h
        obtain ⟨-, h2⟩ := h
        rw [← h2, List.map_cons, ih r (acc ++ [seg]) r3 tr3 hrec]
      | none =>
        rw [hrec] at h
        dsimp only [] at h
        cases h
    · rw [if_neg h1] at h
      by_cases h2 : (acc ++ [seg]) ∈ r.denied
      · rw [if_pos h2] at h
        cases h
      · rw [if_neg h2] at h
        cases hrec : ensure_segments { r with dirs := (acc ++ [seg]) :: r.dirs } (acc ++ [seg]) rest with
        | some pr =>
          obtain ⟨r3, tr3⟩ := pr
          rw [hrec] at h
          dsimp only [] at h
          simp only [Option.some.injEq, Prod.mk.injEq] at h
          obtain ⟨-, h2⟩ := h
          rw [← h2, List.map_cons, ih _ (acc ++ [seg]) r3 tr3 hrec]
        | none =>
          rw [hrec] at h
          dsimp only [] at h
          cases h

/-- Every non-empty prefix of the segment list appears among the accumulated
prefixes. -/
theorem segPrefixes_mem : ∀ (segs : List String) (acc d : List String),
    d <+: segs → d ≠ [] → (acc ++ d) ∈ segPrefixes acc segs := by
  intro segs
  induction segs with
  | nil =>
    intro acc d hpre hne
    exact absurd (List.prefix_nil.mp hpre) hne
  | cons s rest ih =>
    intro acc d hpre hne
    cases d with
    | nil => exact absurd rfl hne
    | cons x d' =>
      obtain ⟨hx, hd'⟩ := List.cons_prefix_cons.mp hpre
      subst hx
      rw [segPrefixes]
      cases d' with
      | nil => exact List.mem_cons_self _ _
      | cons y d'' =>
        have hmem := ih (acc ++ [x]) (y :: d'') hd' (by simp)
        rw [List.append_cons acc x (y :: d'')]
        exact List.mem_cons_of_mem _ hmem

/-- `STOR` never occurs in an `ensure_segments` trace (only `MKD` does). -/
theorem stor_not_mem_map_mkd (L : List (List String)) (p : List String) (ok : Bool) :
    Ev.stor p ok ∉ L.map Ev.mkd := by
  intro h
  rcases List.mem_map.mp h with ⟨a, -, ha⟩
  exact Ev.noConfusion ha

/-- `STOR` never occurs in the clean pass's log events. -/
theorem stor_not_mem_map_cleanMsg (L : List CleanMsg) (p : List String) (ok : Bool) :
    Ev.stor p ok ∉ L.map Ev.cleanMsg := by
  intro h
  rcases List.mem_map.mp h with ⟨a, -, ha⟩
  exact Ev.noConfusion ha

/-- Every `STOR` issued by the top-level upload loop targets a path strictly
below the remote root. -/
theorem deploy_items_stor_shape (patterns : List String) :
    ∀ (items : List TopItem) (localRoot remoteRoot : List String)
      (p : List String) (ok : Bool),
    Ev.stor p ok ∈ (deploy_items patterns localRoot remoteRoot items).2 →
    ∃ suffix, suffix ≠ [] ∧ p = remoteRoot ++ suffix := by
  intro items
  induction items with
  | nil =>
    intro localRoot remoteRoot p ok h
    simp [deploy_items] at h
  | cons item rest ih =>
    intro localRoot remoteRoot p ok h
    cases item with
    | missing name =>
      rw [deploy_items] at h
      simp only [List.mem_cons] at h
      rcases h with h | h
      · cases h
      · exact ih localRoot remoteRoot p ok h
    | file name ok2 =>
      rw [deploy_items] at h
      simp only [List.mem_cons] at h
      rcases h with h | h
      · obtain ⟨hp, -⟩ := Ev.stor.inj h
        exact ⟨[name], by simp, hp⟩
      · exact ih localRoot remoteRoot p ok h
    | dir name children =>
      rw [deploy_items] at h
      simp only [List.mem_cons, List.mem_append] at h
      rcases h with h | h | h
      · cases h
      · obtain ⟨suf, hsuf, hp⟩ :=
          upload_stor_shape patterns children (localRoot ++ [name]) (remoteRoot ++ [name]) p ok h
        exact ⟨name :: suf, by simp, by rw [hp]; simp⟩
      · exact ih localRoot remoteRoot p ok h

/-- Create-before-upload for the top-level upload loop: at every `STOR`
occurrence, every directory strictly between the remote root and the stored
path has an earlier `MKD` attempt. -/
theorem deploy_items_mkd_before_stor (patterns : List String) :
    ∀ (items : List TopItem) (localRoot remoteRoot : List String) (t1 t2 : List Ev)
      (p : List String) (ok : Bool),
    (deploy_items patterns localRoot remoteRoot items).2 = t1 ++ .stor p ok :: t2 →
    ∀ d, remoteRoot <+: d → d <+: p → d ≠ remoteRoot → d ≠ p → Ev.mkd d ∈ t1 := by
  intro items
  induction items with
  | nil =>
    intro localRoot remoteRoot t1 t2 p ok h
    rw [deploy_items] at h
    dsimp only [] at h
    exact absurd h.symm (by simp)
  | cons item rest ih =>
    intro localRoot remoteRoot t1 t2 p ok h
    cases item with
    | missing name =>
      rw [deploy_items] at h
      dsimp only [] at h
      cases t1 with
      | nil =>
        simp only [List.nil_append, List.cons.injEq] at h
        exact Ev.noConfusion h.1
      | cons x t1' =>
        simp only [List.cons_append, List.cons.injEq] at h
        rcases h with ⟨-, h2⟩
        intro d hd1 hd2 hd3 hd4
        exact List.mem_cons_of_mem x (ih localRoot remoteRoot t1' t2 p ok h2 d hd1 hd2 hd3 hd4)
    | file name ok2 =>
      rw [deploy_items] at h
      dsimp only [] at h
      cases t1 with
      | nil =>
        simp only [List.nil_append, List.cons.injEq] at h
        rcases h with ⟨h1, -⟩
        obtain ⟨hp, -⟩ := Ev.stor.inj h1
        intro d hd1 hd2 hd3 hd4
        subst hp
        exact (no_strict_between remoteRoot d name hd1 hd2 hd3 hd4).elim
      | cons x t1' =>
        simp only [List.cons_append, List.cons.injEq] at h
        rcases h with ⟨-, h2⟩
        intro d hd1 hd2 hd3 hd4
        exact List.mem_cons_of_mem x (ih localRoot remoteRoot t1' t2 p ok h2 d hd1 hd2 hd3 hd4)
    | dir name children =>
      rw [deploy_items] at h
      dsimp only [] at h
      cases t1 with
      | nil =>
        simp only [List.nil_append, List.cons.injEq] at h
        exact Ev.noConfusion h.1
      | cons x t1' =>
        simp only [List.cons_append, List.cons.injEq] at h
        rcases h with ⟨hx, h2⟩
        intro d hd1 hd2 hd3 hd4
        rcases List.append_eq_append_iff.mp h2 with ⟨a', ha1, ha2⟩ | ⟨c', hc1, hc2⟩
        · subst ha1
          have hm := ih localRoot remoteRoot a' t2 p ok ha2 d hd1 hd2 hd3 hd4
          exact List.mem_cons_of_mem x (List.mem_append_right _ hm)
        · cases c' with
          | nil =>
            rw [List.nil_append] at hc2
            have hT : (deploy_items patterns localRoot remoteRoot rest).2
                = [] ++ Ev.stor p ok :: t2 := by
              rw [List.nil_append]
              exact hc2.symm
            have hm := ih localRoot remoteRoot [] t2 p ok hT d hd1 hd2 hd3 hd4
            exact absurd hm (List.not_mem_nil _)
          | cons y c'' =>
            simp only [List.cons_append, List.cons.injEq] at hc2
            rcases hc2 with ⟨hy, -⟩
            subst hy
            have hmem : Ev.stor p ok
                ∈ (upload_directory patterns children (localRoot ++ [name]) (remoteRoot ++ [name])).2 := by
              rw [hc1]
              exact List.mem_append_right _ (List.mem_cons_self _ _)
            obtain ⟨suf, hsufne, hpsuf⟩ :=
              upload_stor_shape patterns children (localRoot ++ [name]) (remoteRoot ++ [name]) p ok hmem
            have hpref : (remoteRoot ++ [name]) <+: p := ⟨suf, hpsuf.symm⟩
            by_cases hdq : d = remoteRoot ++ [name]
            · rw [hdq, hx]
              exact List.mem_cons_self _ _
            · rcases prefix_step_cases remoteRoot d p name hd1 hd2 hpref hd3 with hdeq | hdext
              · exact absurd hdeq hdq
              · have hm := upload_mkd_before_stor patterns children (localRoot ++ [name])
                  (remoteRoot ++ [name]) t1' c'' p ok hc1 d hdext hd2 hdq hd4
                exact List.mem_cons_of_mem x hm

/-- C4: in any trace of `deploy`, every remote directory implied by an
uploaded file's remote path — every non-empty proper prefix of that path,
the deployment root's own prefixes included — has an `MKD`
creation attempt strictly earlier in the trace than the file's `STOR`: the
root chain is ensured before any upload, and the depth-first sequential
recursion attempts creation of each directory before descending into it, at
the top level and at every recursive level. -/
theorem deploy_create_before_upload (credsOk connectOk loginOk : Bool) (r : Remote)
    (rootSegs : List String) (cleanFlag : Bool) (cleanTarget : Option RForest)
    (patterns : List String) (localRoot : List String) (items : List TopItem)
    (t1 t2 : List Ev) (p : List String) (ok : Bool)
    (h : (deploy credsOk connectOk loginOk r rootSegs cleanFlag cleanTarget
            patterns localRoot items).2.2 = t1 ++ .stor p ok :: t2) :
    ∀ d, d ≠ [] → d <+: p → d ≠ p → Ev.mkd d ∈ t1 := by
  unfold deploy at h
  by_cases hcr : ¬credsOk
  · rw [if_pos hcr] at h
    exact absurd h.symm (by simp)
  · rw [if_neg hcr] at h
    by_cases hco : ¬connectOk
    · rw [if_pos hco] at h
      exact absurd h.symm (by simp)
    · rw [if_neg hco] at h
      by_cases hlo : ¬loginOk
      · rw [if_pos hlo] at h
        exact absurd h.symm (by simp)
      · rw [if_neg hlo] at h
        cases hens : ensure_segments r [] rootSegs with
        | none =>
          rw [hens] at h
          dsimp only [] at h
          exact absurd h.symm (by simp)
        | some pr =>
          obtain ⟨r2, tr1⟩ := pr
          rw [hens] at h
          dsimp only [] at h
          have hnot1 : Ev.stor p ok ∉ tr1 := by
            rw [ensure_segments_trace rootSegs r [] r2 tr1 hens]
            exact stor_not_mem_map_mkd _ p ok
          have hnotC : Ev.stor p ok
              ∉ (if cleanFlag then (clean_remote_directory cleanTarget).2.map Ev.cleanMsg
                 else []) := by
            by_cases hcf : cleanFlag
            · rw [if_pos hcf]
              exact stor_not_mem_map_cleanMsg _ p ok
            · rw [if_neg hcf]
              exact List.not_mem_nil _
          have hnotA : Ev.stor p ok
              ∉ tr1 ++ (if cleanFlag then (clean_remote_directory cleanTarget).2.map Ev.cleanMsg
                        else []) := by
            intro hm
            rcases List.mem_append.mp hm with hm | hm
            · exact hnot1 hm
            · exact hnotC hm
          obtain ⟨t1b, ht1, hB⟩ := append_split_right _ _ t1 t2 (Ev.stor p ok) h hnotA
          intro d hdne hdp hdnp
          have hmem_st : Ev.stor p ok ∈ (deploy_items patterns localRoot rootSegs items).2 := by
            rw [hB]
            exact List.mem_append_right _ (List.mem_cons_self _ _)
          obtain ⟨suf, hsufne, hpeq⟩ :=
            deploy_items_stor_shape patterns items localRoot rootSegs p ok hmem_st
          have hroot_pre : rootSegs <+: p := ⟨suf, hpeq.symm⟩
          by_cases hdr : d <+: rootSegs
          · have htr1 : tr1 = (segPrefixes [] rootSegs).map Ev.mkd :=
              ensure_segments_trace rootSegs r [] r2 tr1 hens
            have hmem : d ∈ segPrefixes [] rootSegs := by
              have := segPrefixes_mem rootSegs [] d hdr hdne
              simpa using this
            have hmkd : Ev.mkd d ∈ tr1 := by
              rw [htr1]
              exact List.mem_map_of_mem _ hmem
            rw [ht1]
            exact List.mem_append_left _ (List.mem_append_left _ hmkd)
          · rcases List.prefix_or_prefix_of_prefix hdp hroot_pre with hcase | hcase
            · exact absurd hcase hdr
            · have hdnr : d ≠ rootSegs := fun hq => hdr (hq ▸ List.prefix_refl _)
              have hm := deploy_items_mkd_before_stor patterns items localRoot rootSegs
                t1b t2 p ok hB d hcase hdp hdnr hdnp
              rw [ht1]
              exact List.mem_append_right _ hm

/-- Witness for C4 at a concrete input: deploying the single directory item
`s` containing file `f` under root `r` yields the trace
`MKD r, MKD r/s, STOR r/s/f`, and the implied directory `r/s` is indeed
created before the upload. -/
theorem deploy_create_before_upload_witness :
    ((deploy true true true ⟨[], []⟩ ["r"] false none [] ["L"]
        [TopItem.dir "s" (.fcons "f" true .nil)]).2.2
      = [Ev.mkd ["r"], Ev.mkd ["r", "s"]] ++ Ev.stor ["r", "s", "f"] true :: []) ∧
    Ev.mkd ["r", "s"] ∈ [Ev.mkd ["r"], Ev.mkd ["r", "s"]] := by
  constructor
  · rfl
  · exact deploy_create_before_upload true true true ⟨[], []⟩ ["r"] false none [] ["L"]
      [TopItem.dir "s" (.fcons "f" true .nil)]
      [Ev.mkd ["r"], Ev.mkd ["r", "s"]] [] ["r", "s", "f"] true (by rfl)
      ["r", "s"] (by simp) ⟨["f"], rfl⟩ (by decide)

/-- C9: the process exit status reflects only fatal failure.  (a) When the
credentials check, connection, authentication and root-directory ensure all
succeed, the process exits 0 — for *any* item list, so in particular even if
some or all individual file uploads fail; (b) a connection, authentication,
or root-directory-ensure failure makes `deploy` report failure and the
process exit 1. -/
theorem deploy_exit_status (credsOk connectOk loginOk : Bool) (r : Remote)
    (rootSegs : List String) (cleanFlag : Bool) (cleanTarget : Option RForest)
    (patterns : List String) (localRoot : List String) (items : List TopItem) :
    (credsOk = true → connectOk = true → loginOk = true →
      (ensure_segments r [] rootSegs).isSome = true →
      main_exit credsOk connectOk loginOk r rootSegs cleanFlag cleanTarget
        patterns localRoot items = 0) ∧
    ((connectOk = false ∨ loginOk = false ∨ ensure_segments r [] rootSegs = none) →
      main_exit credsOk connectOk loginOk r rootSegs cleanFlag cleanTarget
        patterns localRoot items = 1) := by
  constructor
  · intro h1 h2 h3 h4
    obtain ⟨pr, hpr⟩ := Option.isSome_iff_exists.mp h4
    obtain ⟨r2, tr1⟩ := pr
    simp [main_exit, deploy, h1, h2, h3, hpr]
  · intro hfail
    rcases hfail with h | h | h
    · by_cases hcr : credsOk <;> simp [main_exit, deploy, hcr, h]
    · by_cases hcr : credsOk <;> by_cases hco : connectOk <;>
        simp [main_exit, deploy, hcr, hco, h]
    · by_cases hcr : credsOk <;> by_cases hco : connectOk <;> by_cases hlo : loginOk <;>
        simp [main_exit, deploy, hcr, hco, hlo, h]

/-- Witness for C9 at concrete inputs: with all fatal steps succeeding, a run
whose only file upload fails still exits 0; with the connection failing, the
run exits 1. -/
theorem deploy_exit_status_witness :
    ((ensure_segments (⟨[], []⟩ : Remote) [] ["r"]).isSome = true ∧
      main_exit true true true ⟨[], []⟩ ["r"] false none [] ["L"]
        [TopItem.file "a" false] = 0) ∧
    main_exit true false true ⟨[], []⟩ ["r"] false none [] ["L"]
        [TopItem.file "a" false] = 1 := by
  refine ⟨⟨by rfl, ?_⟩, ?_⟩
  · exact (deploy_exit_status true true true ⟨[], []⟩ ["r"] false none [] ["L"]
      [TopItem.file "a" false]).1 rfl rfl rfl (by rfl)
  · exact (deploy_exit_status true false true ⟨[], []⟩ ["r"] false none [] ["L"]
      [TopItem.file "a" false]).2 (Or.inl rfl)

/-- The top-level upload loop distributes over concatenation of the item
list: counts add and traces concatenate. -/
theorem deploy_items_append (patterns : List String) (localRoot remoteRoot : List String)
    (a b : List TopItem) :
    deploy_items patterns localRoot remoteRoot (a ++ b)
      = ((deploy_items patterns localRoot remoteRoot a).1
           + (deploy_items patterns localRoot remoteRoot b).1,
         (deploy_items patterns localRoot remoteRoot a).2
           ++ (deploy_items patterns localRoot remoteRoot b).2) := by
  induction a with
  | nil => simp [deploy_items]
  | cons item rest ih =>
    cases item with
    | missing name =>
      rw [List.cons_append, deploy_items, deploy_items, ih]
      simp
    | file name ok =>
      rw [List.cons_append, deploy_items, deploy_items, ih]
      simp [Nat.add_assoc]
    | dir name children =>
      rw [List.cons_append, deploy_items, deploy_items, ih]
      simp [Nat.add_assoc]

/-- C10: a configured top-level item whose local path does not exist is
skipped entirely: it contributes no upload, no remote creation and no failure
(its only event is the skip note), the remaining items are still processed
(counts add, traces concatenate around the note), and the run still completes
successfully whenever the fatal steps succeed. -/
theorem deploy_missing_item_skipped (patterns : List String)
    (localRoot remoteRoot : List String) (pre post : List TopItem) (name : String) :
    (deploy_items patterns localRoot remoteRoot (pre ++ TopItem.missing name :: post)).1
        = (deploy_items patterns localRoot remoteRoot pre).1
          + (deploy_items patterns localRoot remoteRoot post).1 ∧
      (deploy_items patterns localRoot remoteRoot (pre ++ TopItem.missing name :: post)).2
        = (deploy_items patterns localRoot remoteRoot pre).2
          ++ .skipMissing name :: (deploy_items patterns localRoot remoteRoot post).2 ∧
      ∀ (r : Remote) (rootSegs : List String) (cleanFlag : Bool)
        (cleanTarget : Option RForest) (r2 : Remote) (tr : List Ev),
        ensure_segments r [] rootSegs = some (r2, tr) →
        (deploy true true true r rootSegs cleanFlag cleanTarget patterns localRoot
            (pre ++ TopItem.missing name :: post)).1 = true := by
  refine ⟨?_, ?_, ?_⟩
  · rw [deploy_items_append, deploy_items]
  · rw [deploy_items_append, deploy_items]
  · intro r rootSegs cleanFlag cleanTarget r2 tr hens
    simp [deploy, hens]

/-- Witness for C10 at a concrete input: with items `a`, missing `b`, `c`,
the count is the sum over `a` and `c`, the trace records only a skip note for
`b`, and the deploy still succeeds. -/
theorem deploy_missing_item_skipped_witness :
    ensure_segments (⟨[], []⟩ : Remote) [] ["r"]
        = some (⟨[["r"]], []⟩, [Ev.mkd ["r"]]) ∧
      (deploy true true true ⟨[], []⟩ ["r"] false none [] ["L"]
          ([TopItem.file "a" true] ++ TopItem.missing "b" :: [TopItem.file "c" true])).1
        = true := by
  constructor
  · rfl
  · exact (deploy_missing_item_skipped [] ["L"] ["r"] [TopItem.file "a" true]
      [TopItem.file "c" true] "b").2.2 ⟨[], []⟩ ["r"] false none ⟨[["r"]], []⟩
      [Ev.mkd ["r"]] (by rfl)

/-- C7 evaluated at the failing input: a remote entry that cannot be deleted
by any method is *not* individually logged.  A locked file `x` at the top
level survives the clean yet the log reads `Deleted directory: x`; a locked
file `x` nested inside directory `d` survives, `d` survives (its `rmd` fails
on the non-empty directory), and the whole log is just `Deleted directory: d`
— no `Could not delete` message is ever emitted for `x` or `d` at any level,
because `remove_directory`'s bare `except: pass` swallows every failure and
makes `clean_remote_directory`'s `Could not delete` branch unreachable. -/
theorem clean_undeletable_not_logged :
    clean_remote_directory (some (.fcons "x" true .nil))
        = (some (.fcons "x" true .nil), [CleanMsg.deletedDir "x"]) ∧
      clean_remote_directory (some (.dcons "d" (.fcons "x" true .nil) .nil))
        = (some (.dcons "d" (.fcons "x" true .nil) .nil), [CleanMsg.deletedDir "d"]) :=
  ⟨rfl, rfl⟩

/-- C8: cleaning a remote directory that does not exist (the initial `CWD`
into the target raises `error_perm`) is a no-op success: the function returns
normally with zero deletions — the log holds only the `doesn't exist` note
and no `Deleted`/`Could not delete` entries — and the deployment is not
aborted: a deploy run with clean mode requested and a missing clean target
still returns `True`. -/
theorem clean_nonexistent_noop :
    clean_remote_directory none = (none, [CleanMsg.noSuchDir]) ∧
      (deploy true true true ⟨[], []⟩ ["r"] true none [] ["L"] []).1 = true :=
  ⟨rfl, rfl⟩
